import Mathlib

/-!
Verification of the Magnum GDB pretty-printers
(`src/debuggers/gdb/magnum/printers.py`) against their natural-language
specification.  Strings are modelled as `List Char`; Python string
operations (`str.split`, `str.strip`, `int(...)`, indexing) are embedded
as executable Lean functions below.
-/

/-- Model of Python `str.split(c)` for a single-character separator:
splits on every occurrence of `c`, keeping empty pieces, and returns
`[[]]` on the empty string.  Always returns a non-empty list. -/
def splitOnChar (c : Char) : List Char → List (List Char)
  | [] => [[]]
  | x :: xs =>
    match splitOnChar c xs with
    | [] => [[]]
    | h :: t => if x = c then [] :: h :: t else (x :: h) :: t

/-- Characters Python `str.strip()` removes: ASCII whitespace. -/
def pyIsSpace (c : Char) : Bool :=
  c = ' ' || c = '\t' || c = '\n' || c = '\r' || c = '\x0b' || c = '\x0c'

/-- Model of Python `str.strip()`: drop leading and trailing whitespace. -/
def pyStrip (s : List Char) : List Char :=
  ((s.dropWhile pyIsSpace).reverse.dropWhile pyIsSpace).reverse

/-- Accumulator loop for a run of decimal digits; fails on any
non-digit character. -/
def parseDigitsAux : Nat → List Char → Option Nat
  | acc, [] => some acc
  | acc, c :: cs =>
    if c.isDigit then parseDigitsAux (acc * 10 + (c.toNat - 48)) cs
    else none

/-- Model of Python `int(s)` on decimal text: strips whitespace, accepts
an optional sign followed by at least one digit, and returns `none`
where Python raises `ValueError`.  (Underscore digit separators, which
never occur in type signatures, are not modelled.) -/
def parsePyInt (s : List Char) : Option Int :=
  match pyStrip s with
  | [] => none
  | '+' :: ds =>
    match ds with
    | [] => none
    | _ => (parseDigitsAux 0 ds).map Int.ofNat
  | '-' :: ds =>
    match ds with
    | [] => none
    | _ => (parseDigitsAux 0 ds).map (fun n => -(n : Int))
  | ds => (parseDigitsAux 0 ds).map Int.ofNat

/-- Model of the template-parameter extraction used by
`MagnumBezier.__init__` (printers.py line 123) and `MagnumBitVector`:
`name.split('<')[1].split('>')[0].split(',')`.  The Python `[1]` index
raises on a name without `<`; the model returns the split of the empty
string there, which no claim exercises. -/
def extractTemplateParams (name : List Char) : List (List Char) :=
  splitOnChar ',' ((splitOnChar '>' ((splitOnChar '<' name).getD 1 [])).getD 0 [])

/-- Model of Python substring containment `pat in s` (`str.__contains__`). -/
def hasSub (s pat : List Char) : Bool :=
  if pat.isPrefixOf s then true
  else
    match s with
    | [] => false
    | _ :: t => hasSub t pat

/-- Label `[i]` produced by the numeric-index iterators
(`MagnumMatrix.Iterator`, `MagnumBezier.Iterator`, `MagnumBitVector.Iterator`). -/
def indexLabel (i : Nat) : String :=
  "[" ++ toString i ++ "]"

/-- Unrolling of the Python iterator protocol used by the printers: the
iterator holds a counter starting at `start` and stops when it reaches
the bound; entry `i` is `(indexLabel i, f i)`.  The second argument is
the number of remaining entries. -/
def countingChildren (f : Nat → α) : Nat → Nat → List (String × α)
  | _, 0 => []
  | start, n + 1 => (indexLabel start, f start) :: countingChildren f (start + 1) n

/-- Bit extraction of `MagnumBitVector.Iterator.__next__` (printers.py
line 151): `bool((data[int(count/8)] >> count%8) & 0x01)`, with the
byte array modelled as a list of byte values. -/
def bitAt (bytes : List Nat) (i : Nat) : Bool :=
  (((bytes.getD (i / 8) 0) >>> (i % 8)) &&& 1) != 0

/-- Children of `MagnumBitVector`: iterator from 0 up to `size`. -/
def bitVectorChildren (bytes : List Nat) (size : Nat) : List (String × Bool) :=
  countingChildren (bitAt bytes) 0 size

/-- Text of `MagnumBitVector.to_string`. -/
def bitVectorToString (size : Nat) : String :=
  "BitVector of size " ++ toString size

/-- Row count of `MagnumMatrix.__init__` (printers.py lines 233-238)
run on the stripped type name: try
`int(name.split('<')[1].split(',')[0].strip())`, falling back on
`ValueError` to `int(name.split('<')[0][-1])`.  Returns `none` where
Python would raise an uncaught exception (non-numeric fallback
character or an empty name). -/
def matrixRows (name : List Char) : Option Int :=
  match parsePyInt (pyStrip ((splitOnChar ','
      ((splitOnChar '<' name).getD 1 [])).getD 0 [])) with
  | some r => some r
  | none =>
    match ((splitOnChar '<' name).getD 0 []).getLast? with
    | some c => parsePyInt [c]
    | none => none

/-- Full `MagnumMatrix.__init__` (printers.py lines 232-245): rows as
in `matrixRows`; columns come from the second template parameter when
the name contains `"RectangularMatrix"`, and equal rows otherwise. -/
def mkMatrixPrinter (name : List Char) : Option (Int × Int) :=
  match matrixRows name with
  | none => none
  | some r =>
    if hasSub name ("RectangularMatrix".toList) then
      (parsePyInt (pyStrip ((splitOnChar ','
          ((splitOnChar '<' name).getD 1 [])).getD 1 []))).map (fun c => (r, c))
    else
      some (r, r)

/-- Text of `MagnumMatrix.to_string`. -/
def matrixToString (rows columns : Int) : String :=
  "Matrix with " ++ toString rows ++ " rows and " ++ toString columns ++ " columns"

/-- Children of `MagnumMatrix`: iterator yielding one entry per row,
labelled by the row index; the value is the row sub-value `data[row]`,
modelled here by its index. -/
def matrixRowChildren (rows : Nat) : List (String × Nat) :=
  countingChildren (fun i => i) 0 rows

/-- Byte order reported by Python `sys.byteorder`. -/
inductive ByteOrder where
  | little
  | big
deriving DecidableEq

/-- Model of Python `v.to_bytes(2, byteorder=order)` (printers.py line
210); `none` models the `OverflowError` raised when the value does not
fit in two bytes. -/
def intToBytes2 (order : ByteOrder) (v : Nat) : Option (List Nat) :=
  if v < 65536 then
    match order with
    | ByteOrder.little => some [v % 256, v / 256]
    | ByteOrder.big => some [v / 256, v % 256]
  else none

/-- Native-order 16-bit read performed by `struct.unpack('e', data)` on
the two-byte buffer before interpreting the bits. -/
def unpackU16 (order : ByteOrder) (bytes : List Nat) : Nat :=
  match order with
  | ByteOrder.little => bytes.getD 0 0 + 256 * bytes.getD 1 0
  | ByteOrder.big => 256 * bytes.getD 0 0 + bytes.getD 1 0

/-- IEEE-754 binary16 interpretation of a 16-bit pattern, the numeric
semantics of `struct.unpack('e', ...)`: sign bit 15, 5 exponent bits,
10 significand bits; `none` models the non-finite encodings (exponent
field 31, infinities and NaNs).  Exact value as a rational. -/
def decodeHalf (bits : Nat) : Option ℚ :=
  let s := bits / 32768 % 2
  let e := bits / 1024 % 32
  let m := bits % 1024
  if e = 31 then none
  else
    let mag : ℚ := if e = 0 then (m : ℚ) / 2 ^ 24 else ((1024 + m : Nat) : ℚ) * 2 ^ e / 2 ^ 25
    some (if s = 1 then -mag else mag)

/-- Value produced by `MagnumHalf.to_string` (printers.py lines
209-211) from the stored 16-bit integer `_data`: encode it to two bytes
with the native byte order, then reinterpret those bytes as a
native-order binary16. -/
def magnumHalfValue (order : ByteOrder) (v : Nat) : Option ℚ :=
  (intToBytes2 order v).bind (fun bs => decodeHalf (unpackU16 order bs))

/-- Decimal text CPython produces for a float whose value is integral
(e.g. `1.0`); non-integral values are not needed by this development
and map to `none`. -/
def pyFloatRepr (q : ℚ) : Option String :=
  if q.den = 1 then some (toString q.num ++ ".0") else none

/-- Rendered text of `MagnumHalf.to_string` for finite integral-valued
halves. -/
def magnumHalfToString (order : ByteOrder) (v : Nat) : Option String :=
  (magnumHalfValue order v).bind pyFloatRepr

/-- Plane labels of `MagnumFrustum.Iterator.LABELS` (printers.py line 186). -/
def frustumLabels : List String :=
  ["left", "right", "bottom", "top", "near", "far"]

/-- One step of `MagnumFrustum.Iterator.__next__`: the label is the
semantic name wrapped in brackets, the value is `data[count]`. -/
def namedChildren (labels : List String) (f : Nat → α) : Nat → Nat → List (String × α)
  | _, 0 => []
  | start, n + 1 =>
    ("[" ++ labels.getD start "" ++ "]", f start) :: namedChildren labels f (start + 1) n

/-- Children of `MagnumFrustum`: six entries, one per plane. -/
def frustumChildren (f : Nat → α) : List (String × α) :=
  namedChildren frustumLabels f 0 frustumLabels.length

/-- Text of `MagnumFrustum`: the class defines no `to_string`, so the
inherited `MagnumTypePrinter.to_string` prints the bare type
signature. -/
def frustumToString (typeSignature : String) : String :=
  typeSignature

/-- Text of `MagnumTrack.to_string` (printers.py line 95):
the type signature followed by the stored keyframe count
`_data._size`. -/
def trackToString (typeSignature : String) (size : Nat) : String :=
  typeSignature ++ " with " ++ toString size ++ " keyframes"

/-- Children of `MagnumTrack` (printers.py lines 75-92): the iterator
walks the fields of the value's type, labelling each entry with the
part of the field name after the first underscore, in brackets, and
yielding the field's value (modelled by `f`). -/
def trackChildren (f : String → α) : List String → List (String × α)
  | [] => []
  | fld :: rest =>
    ("[" ++ ((splitOnChar '_' fld.toList).getD 1 []).asString ++ "]", f fld)
      :: trackChildren f rest

/-- Lowercase hexadecimal digit. -/
def hexDigitChar (n : Nat) : Char :=
  "0123456789abcdef".toList.getD n '0'

/-- Model of Python `"{:02x}".format(b)` for a byte value `b < 256`:
two lowercase hex digits. -/
def byteHex (b : Nat) : List Char :=
  [hexDigitChar (b / 16 % 16), hexDigitChar (b % 16)]

/-- Accumulation loop of `MagnumResourceKey.to_string` (printers.py
lines 58-62): for `i` in a range of the given remaining length starting
at `i`, append the two hex digits of `int(digest[i]) & 0xff`.  Digest
entries are modelled as `Int` since the underlying chars may be signed;
Python's `& 0xff` is the mathematical residue mod 256. -/
def resourceKeyGo (digest : List Int) (i : Nat) : Nat → List Char
  | 0 => []
  | n + 1 => byteHex (((digest.getD i 0) % 256).toNat) ++ resourceKeyGo digest (i + 1) n

/-- Text of `MagnumResourceKey.to_string`: eight digest bytes as
lowercase hex with no separators. -/
def resourceKeyToString (digest : List Int) : String :=
  (resourceKeyGo digest 0 8).asString

/-- Whether `MagnumResourceKey` exposes children: the class defines no
`children` method, so GDB treats the printer as childless. -/
def resourceKeyHasChildren : Bool :=
  false

/-- Names of the printers `build_magnum_printer` adds to the
`RegexpCollectionPrettyPrinter` named `"Magnum"` (printers.py lines
301-400), in registration order. -/
def magnumPrinterNames : List String :=
  ["CompressedImage", "CompressedImageView", "Image", "ImageView", "Resource",
   "ResourceKey", "Timeline", "Animation::Track", "Math::Bezier",
   "Math::BitVector", "Math::Color3", "Math::Color4", "Math::Complex",
   "Math::CubicHermite", "Math::Deg", "Math::DualComplex",
   "Math::DualQuaternion", "Math::Frustum", "Math::Half", "Math::Matrix",
   "Math::Matrix3", "Math::Matrix4", "Math::Quaternion", "Math::Rad",
   "Math::Range", "Math::Range2D", "Math::Range3D", "Math::RectangularMatrix",
   "Math::Unit", "Math::Vector", "Math::Vector2", "Math::Vector3",
   "Math::Vector4"]

/-- Process-wide state relevant to printer registration: the module
global `magnum_printers` (the collection, `None` before first build)
and the pretty-printer names already registered on the target host
object. -/
structure PrinterState where
  magnumPrinters : Option (List String)
  hostPrinters : List String
deriving DecidableEq

/-- Model of `gdb.printing.register_pretty_printer(obj, printer)`
(documented GDB behaviour, the host side of the registration boundary):
appends the printer to the object's pretty-printer list, or raises
`RuntimeError` when a printer with the same name is already
registered. -/
def registerPrettyPrinter (printers : List String) (name : String) :
    Except String (List String) :=
  if name ∈ printers then Except.error "RuntimeError: printer already registered"
  else Except.ok (printers ++ [name])

/-- Model of `build_magnum_printer` (printers.py lines 295-301): a
no-op when the global collection already exists, otherwise builds it. -/
def build_magnum_printer (s : PrinterState) : PrinterState :=
  if s.magnumPrinters.isSome then s
  else { s with magnumPrinters := some magnumPrinterNames }

/-- Model of `register_magnum_printers` (printers.py lines 402-411):
build the collection if the global is still `None`, then register it
with the host under its name `"Magnum"`. -/
def register_magnum_printers (s : PrinterState) : Except String PrinterState :=
  let s1 := if s.magnumPrinters.isNone then build_magnum_printer s else s
  match registerPrettyPrinter s1.hostPrinters "Magnum" with
  | Except.error e => Except.error e
  | Except.ok h => Except.ok { s1 with hostPrinters := h }

theorem splitOnChar_ne_nil (c : Char) (xs : List Char) : splitOnChar c xs ≠ [] := by
  cases xs with
  | nil => simp [splitOnChar]
  | cons x xs =>
    simp only [splitOnChar]
    cases h : splitOnChar c xs with
    | nil => simp
    | cons h t =>
      by_cases hx : x = c <;> simp [hx]

theorem splitOnChar_not_mem (c : Char) (xs : List Char) (h : c ∉ xs) :
    splitOnChar c xs = [xs] := by
  induction xs with
  | nil => rfl
  | cons x xs ih =>
    simp only [List.mem_cons, not_or] at h
    simp only [splitOnChar, ih h.2]
    have hx : ¬ (x = c) := fun hxc => h.1 hxc.symm
    simp [hx]

theorem splitOnChar_append (c : Char) (xs ys : List Char) (h : c ∉ xs) :
    splitOnChar c (xs ++ c :: ys) = xs :: splitOnChar c ys := by
  induction xs with
  | nil =>
    simp only [List.nil_append, splitOnChar]
    cases hs : splitOnChar c ys with
    | nil => exact absurd hs (splitOnChar_ne_nil c ys)
    | cons a t => simp
  | cons x xs ih =>
    simp only [List.mem_cons, not_or] at h
    simp only [List.cons_append, splitOnChar, List.append_eq]
    rw [ih h.2]
    have hx : ¬ (x = c) := fun hxc => h.1 hxc.symm
    simp [hx]

theorem splitOnChar_head (c : Char) (xs : List Char) :
    (splitOnChar c xs).getD 0 [] = xs.takeWhile (fun x => x ≠ c) := by
  induction xs with
  | nil => rfl
  | cons x xs ih =>
    simp only [splitOnChar]
    cases hs : splitOnChar c xs with
    | nil => exact absurd hs (splitOnChar_ne_nil c xs)
    | cons h t =>
      rw [hs] at ih
      simp only [List.getD_cons_zero] at ih
      by_cases hx : x = c
      · simp [hx, List.takeWhile]
      · simp [hx, List.takeWhile, ih]

theorem takeWhile_all_append (p : Char → Bool) (xs ys : List Char)
    (h : ∀ x ∈ xs, p x) :
    (xs ++ ys).takeWhile p = xs ++ ys.takeWhile p := by
  induction xs with
  | nil => rfl
  | cons x xs ih =>
    have hx : p x := h x (List.mem_cons_self x xs)
    simp only [List.cons_append, List.takeWhile, hx]
    simp [ih fun a ha => h a (List.mem_cons_of_mem x ha)]

theorem countingChildren_length (f : Nat → α) (start n : Nat) :
    (countingChildren f start n).length = n := by
  induction n generalizing start with
  | zero => rfl
  | succ n ih => simp [countingChildren, ih]

theorem countingChildren_getD (f : Nat → α) (start n i : Nat) (hi : i < n)
    (d : String × α) :
    (countingChildren f start n).getD i d = (indexLabel (start + i), f (start + i)) := by
  induction n generalizing start i with
  | zero => omega
  | succ n ih =>
    cases i with
    | zero => simp [countingChildren]
    | succ i =>
      have hstep : start + 1 + i = start + (i + 1) := by omega
      simp only [countingChildren, List.getD_cons_succ]
      rw [ih (start + 1) i (by omega), hstep]

/-- C1. The claim states that the signature-parameter extraction
tracks bracket nesting, so that `"Matrix<3, Vector<2, float>>"` yields
the parameters `"3"` and `"Vector<2, float>"`.  The code's
`split('<')[1].split('>')[0].split(',')` does not track nesting: on
that input it yields `"3"` and `" Vector"`, truncating the nested
parameter. -/
theorem extractTemplateParams_nested_counterexample :
    extractTemplateParams ("Matrix<3, Vector<2, float>>".toList)
      = ["3".toList, " Vector".toList] ∧
    pyStrip (" Vector".toList) = "Vector".toList ∧
    (" Vector".toList ≠ " Vector<2, float>".toList) ∧
    ("Vector".toList ≠ "Vector<2, float>".toList) := by
  refine ⟨by decide, by decide, by decide, by decide⟩

/-- C1 (amended): the extraction splits the region between the first
`<` and the first following closing bracket naively on every comma; it
returns exactly the N top-level comma-separated parameters in
left-to-right order whenever the bracketed region contains no nested
brackets. -/
theorem extractTemplateParams_flat (pre body rest : List Char)
    (h1 : '<' ∉ pre) (h2 : '<' ∉ body) (h3 : '>' ∉ body) :
    extractTemplateParams (pre ++ '<' :: (body ++ '>' :: rest)) = splitOnChar ',' body := by
  unfold extractTemplateParams
  rw [splitOnChar_append '<' pre _ h1]
  have hgd : (pre :: splitOnChar '<' (body ++ '>' :: rest)).getD 1 [] =
      (splitOnChar '<' (body ++ '>' :: rest)).getD 0 [] := rfl
  rw [hgd, splitOnChar_head, splitOnChar_head]
  have hallLt : ∀ x ∈ body, (fun y => decide (y ≠ '<')) x = true := by
    intro x hx
    simpa using ne_of_mem_of_not_mem hx h2
  have hallGt : ∀ x ∈ body, (fun y => decide (y ≠ '>')) x = true := by
    intro x hx
    simpa using ne_of_mem_of_not_mem hx h3
  rw [takeWhile_all_append _ _ _ hallLt]
  have htw : List.takeWhile (fun y => decide (y ≠ '<')) ('>' :: rest)
      = '>' :: List.takeWhile (fun y => decide (y ≠ '<')) rest := by
    simp [List.takeWhile]
  rw [htw, takeWhile_all_append _ _ _ hallGt]
  have htw2 : List.takeWhile (fun y => decide (y ≠ '>'))
      ('>' :: List.takeWhile (fun y => decide (y ≠ '<')) rest) = [] := by
    simp [List.takeWhile]
  rw [htw2, List.append_nil]

/-- Closed instance of `extractTemplateParams_flat` on the signature
`"Matrix<3, float>"`. -/
theorem extractTemplateParams_flat_witness :
    extractTemplateParams ("Matrix".toList ++ '<' :: ("3, float".toList ++ '>' :: []))
      = splitOnChar ',' ("3, float".toList) :=
  extractTemplateParams_flat ("Matrix".toList) ("3, float".toList) []
    (by decide) (by decide) (by decide)

/-- C2. Bit-vector child enumeration yields exactly `size` children,
child `i` labelled `[i]` with the boolean from byte `i/8` of the stored
data shifted right by `i%8` and masked with 1; for size 10 with byte 0
equal to 0b00000101 and byte 1 equal to 0b00000010, children 0..7 come
from byte 0 and children 8, 9 from byte 1. -/
theorem bitVector_children_spec (bytes : List Nat) (size i : Nat) (hi : i < size) :
    (bitVectorChildren bytes size).length = size ∧
    (bitVectorChildren bytes size).getD i ("", false) =
      (indexLabel i, (((bytes.getD (i / 8) 0) >>> (i % 8)) &&& 1) != 0) ∧
    bitVectorChildren [5, 2] 10 =
      [("[0]", true), ("[1]", false), ("[2]", true), ("[3]", false), ("[4]", false),
       ("[5]", false), ("[6]", false), ("[7]", false), ("[8]", false), ("[9]", true)] := by
  refine ⟨countingChildren_length _ _ _, ?_, by decide⟩
  have h := countingChildren_getD (bitAt bytes) 0 size i hi ("", false)
  simpa [bitAt] using h

/-- Closed instance of `bitVector_children_spec` for the stored bytes
5 and 2 at index 2. -/
theorem bitVector_children_spec_witness :
    (bitVectorChildren [5, 2] 10).length = 10 ∧
    (bitVectorChildren [5, 2] 10).getD 2 ("", false) =
      (indexLabel 2, ((([5, 2].getD (2 / 8) 0 : Nat) >>> (2 % 8)) &&& 1) != 0) ∧
    bitVectorChildren [5, 2] 10 =
      [("[0]", true), ("[1]", false), ("[2]", true), ("[3]", false), ("[4]", false),
       ("[5]", false), ("[6]", false), ("[7]", false), ("[8]", false), ("[9]", true)] :=
  bitVector_children_spec [5, 2] 10 2 (by decide)

/-- C3. A matrix value with signature `"RectangularMatrix<2, 3, float>"`
constructs with rows 2 and columns 3, prints
`"Matrix with 2 rows and 3 columns"`, and enumerates exactly two row
children labelled `[0]` and `[1]`. -/
theorem rectangularMatrix_2_3_spec :
    mkMatrixPrinter ("RectangularMatrix<2, 3, float>".toList) = some (2, 3) ∧
    matrixToString 2 3 = "Matrix with 2 rows and 3 columns" ∧
    (matrixRowChildren 2).map Prod.fst = ["[0]", "[1]"] ∧
    (matrixRowChildren 2).length = 2 := by
  refine ⟨by decide, by decide, by decide, by decide⟩

/-- C4. The half-precision renderer interprets the stored 16-bit
pattern as an IEEE-754 binary16 number; the pattern 0x3C00 decodes to
the exact value 1 and renders as the decimal text of 1.0, on either
native byte order. -/
theorem half_decode_0x3C00 :
    decodeHalf 0x3C00 = some 1 ∧
    magnumHalfValue ByteOrder.little 0x3C00 = some 1 ∧
    magnumHalfToString ByteOrder.little 0x3C00 = some "1.0" ∧
    magnumHalfToString ByteOrder.big 0x3C00 = some "1.0" := by
  have hdec : decodeHalf 0x3C00 = some 1 := by
    unfold decodeHalf
    norm_num
  have hbl : intToBytes2 ByteOrder.little 0x3C00 = some [0, 60] := by
    simp [intToBytes2]
  have hbb : intToBytes2 ByteOrder.big 0x3C00 = some [60, 0] := by
    simp [intToBytes2]
  have hul : unpackU16 ByteOrder.little [0, 60] = 0x3C00 := by
    simp [unpackU16]
  have hub : unpackU16 ByteOrder.big [60, 0] = 0x3C00 := by
    simp [unpackU16]
  have hvl : magnumHalfValue ByteOrder.little 0x3C00 = some 1 := by
    simp [magnumHalfValue, hbl, hul, hdec]
  have hvb : magnumHalfValue ByteOrder.big 0x3C00 = some 1 := by
    simp [magnumHalfValue, hbb, hub, hdec]
  have hstr : pyFloatRepr 1 = some "1.0" := by
    simp only [pyFloatRepr, Rat.den_one, Rat.num_one, if_pos rfl]
    rfl
  exact ⟨hdec, hvl, by simp [magnumHalfToString, hvl, hstr],
    by simp [magnumHalfToString, hvb, hstr]⟩

/-- C5. The claim states the frustum children are labelled with the
bare semantic names `left`, `right`, and so on; the iterator actually
wraps each name in brackets, so the first label is `"[left]"`, not
`"left"`. -/
theorem frustum_labels_counterexample :
    (frustumChildren (fun i => i)).map Prod.fst =
      ["[left]", "[right]", "[bottom]", "[top]", "[near]", "[far]"] ∧
    (frustumChildren (fun i => i)).map Prod.fst ≠
      ["left", "right", "bottom", "top", "near", "far"] := by
  refine ⟨by decide, by decide⟩

/-- C5 (amended): the frustum renderer has no text override (its text
is the bare type signature) and yields exactly six children whose
labels are the semantic plane names wrapped in brackets, in the fixed
order left, right, bottom, top, near, far. -/
theorem frustum_spec (sig : String) (f : Nat → α) :
    frustumToString sig = sig ∧
    (frustumChildren f).length = 6 ∧
    (frustumChildren f).map Prod.fst =
      ["[left]", "[right]", "[bottom]", "[top]", "[near]", "[far]"] :=
  ⟨rfl, rfl, rfl⟩

/-- C6. The claim states the keyframe-track renderer exposes no
children; `MagnumTrack` defines a `children` method iterating over the
fields of the value's type, so a track value with fields `_data` and
`_interpolator` yields two children. -/
theorem track_children_counterexample :
    trackChildren (fun f => f) ["_data", "_interpolator"] =
      [("[data]", "_data"), ("[interpolator]", "_interpolator")] ∧
    trackChildren (fun f => f) ["_data", "_interpolator"] ≠ [] := by
  refine ⟨by decide, by decide⟩

theorem trackChildren_length (f : String → α) (fields : List String) :
    (trackChildren f fields).length = fields.length := by
  induction fields with
  | nil => rfl
  | cons a t ih => simp [trackChildren, ih]

theorem trackChildren_getD (f : String → α) (fields : List String) (i : Nat)
    (hi : i < fields.length) (d : String × α) :
    (trackChildren f fields).getD i d =
      ("[" ++ ((splitOnChar '_' (fields.getD i "").toList).getD 1 []).asString ++ "]",
       f (fields.getD i "")) := by
  induction fields generalizing i with
  | nil => simp at hi
  | cons a t ih =>
    cases i with
    | zero => rfl
    | succ i =>
      simp only [trackChildren, List.getD_cons_succ]
      exact ih i (by simpa using hi)

/-- C6 (amended): the keyframe-track renderer's text is
`"{type} with {N} keyframes"` with `N` the stored keyframe count, and
it exposes one child per field of the value's type, labelled with the
part of the field name after the first underscore, in brackets. -/
theorem track_text_and_children (sig : String) (n : Nat) (fields : List String)
    (f : String → String) (i : Nat) (hi : i < fields.length) :
    trackToString sig n = sig ++ " with " ++ toString n ++ " keyframes" ∧
    (trackChildren f fields).length = fields.length ∧
    (trackChildren f fields).getD i ("", "") =
      ("[" ++ ((splitOnChar '_' (fields.getD i "").toList).getD 1 []).asString ++ "]",
       f (fields.getD i "")) :=
  ⟨rfl, trackChildren_length f fields, trackChildren_getD f fields i hi ("", "")⟩

/-- Closed instance of `track_text_and_children` on a two-field track. -/
theorem track_text_and_children_witness :
    trackToString "T" 7 = "T" ++ " with " ++ toString 7 ++ " keyframes" ∧
    (trackChildren (fun s => s) ["_data", "_interpolator"]).length =
      (["_data", "_interpolator"] : List String).length ∧
    (trackChildren (fun s => s) ["_data", "_interpolator"]).getD 0 ("", "") =
      ("[" ++ ((splitOnChar '_'
          ((["_data", "_interpolator"] : List String).getD 0 "").toList).getD 1 []).asString
        ++ "]",
       (fun s : String => s) ((["_data", "_interpolator"] : List String).getD 0 "")) :=
  track_text_and_children "T" 7 ["_data", "_interpolator"] (fun s => s) 0 (by decide)

theorem resourceKeyGo_length (digest : List Int) (i n : Nat) :
    (resourceKeyGo digest i n).length = 2 * n := by
  induction n generalizing i with
  | zero => rfl
  | succ n ih =>
    simp only [resourceKeyGo, byteHex, List.cons_append, List.nil_append,
      List.length_cons, ih]
    omega

theorem hexDigitChar_mem (n : Nat) : hexDigitChar n ∈ "0123456789abcdef".toList := by
  unfold hexDigitChar
  simp only [List.getD]
  cases h : "0123456789abcdef".toList.get? n with
  | none => simp [h]
  | some a =>
    have ha := List.get?_mem h
    simp only [h, Option.getD_some]
    exact ha

theorem resourceKeyGo_mem (digest : List Int) (i n : Nat) (c : Char)
    (hc : c ∈ resourceKeyGo digest i n) : c ∈ "0123456789abcdef".toList := by
  induction n generalizing i with
  | zero => simp [resourceKeyGo] at hc
  | succ n ih =>
    simp only [resourceKeyGo, byteHex, List.cons_append, List.nil_append,
      List.mem_cons] at hc
    rcases hc with hc | hc | hc
    · exact hc ▸ hexDigitChar_mem _
    · exact hc ▸ hexDigitChar_mem _
    · exact ih _ hc

/-- C7. The key/digest renderer prints its eight stored bytes as
lowercase hex with no separators and exposes no children: the output
always has 16 characters drawn from the lowercase hex alphabet, and
the digest bytes 01 AB 00 FF 10 20 30 40 render as
`"01ab00ff10203040"`. -/
theorem resourceKey_hex (digest : List Int) (c : Char)
    (hc : c ∈ (resourceKeyToString digest).toList) :
    (resourceKeyToString digest).length = 16 ∧
    c ∈ "0123456789abcdef".toList ∧
    resourceKeyToString [0x01, 0xAB, 0x00, 0xFF, 0x10, 0x20, 0x30, 0x40] =
      "01ab00ff10203040" ∧
    resourceKeyHasChildren = false := by
  refine ⟨?_, ?_, by decide, rfl⟩
  · show (resourceKeyGo digest 0 8).length = 16
    rw [resourceKeyGo_length]
  · exact resourceKeyGo_mem digest 0 8 c hc

/-- Closed instance of `resourceKey_hex` on the digest from the claim. -/
theorem resourceKey_hex_witness :
    (resourceKeyToString [0x01, 0xAB, 0x00, 0xFF, 0x10, 0x20, 0x30, 0x40]).length = 16 ∧
    '0' ∈ "0123456789abcdef".toList ∧
    resourceKeyToString [0x01, 0xAB, 0x00, 0xFF, 0x10, 0x20, 0x30, 0x40] =
      "01ab00ff10203040" ∧
    resourceKeyHasChildren = false :=
  resourceKey_hex [0x01, 0xAB, 0x00, 0xFF, 0x10, 0x20, 0x30, 0x40] '0' (by decide)

/-- C8. The claim states repeated invocations of the registration
entry point are no-ops.  Starting from a fresh process state, the
first call builds the collection and registers it with the host; the
second call re-submits the same collection, which the host rejects
with a duplicate-name error instead of leaving its state unchanged. -/
theorem register_twice_counterexample :
    register_magnum_printers ⟨none, []⟩ =
      Except.ok ⟨some magnumPrinterNames, ["Magnum"]⟩ ∧
    register_magnum_printers ⟨some magnumPrinterNames, ["Magnum"]⟩ =
      Except.error "RuntimeError: printer already registered" ∧
    register_magnum_printers ⟨some magnumPrinterNames, ["Magnum"]⟩ ≠
      Except.ok ⟨some magnumPrinterNames, ["Magnum"]⟩ := by
  have h2 : register_magnum_printers ⟨some magnumPrinterNames, ["Magnum"]⟩ =
      Except.error "RuntimeError: printer already registered" := rfl
  refine ⟨rfl, h2, ?_⟩
  rw [h2]
  intro hcontra
  exact Except.noConfusion hcontra

theorem registerPrettyPrinter_ok_mem (printers res : List String) (name : String)
    (h : registerPrettyPrinter printers name = Except.ok res) : name ∈ res := by
  unfold registerPrettyPrinter at h
  split at h
  · exact Except.noConfusion h
  · simp only [Except.ok.injEq] at h
    rw [← h]
    simp

/-- C8 (amended): building the process-wide registry is idempotent
(after the first call, further builds leave the state unchanged), but
the registration entry point re-submits the collection to the host on
every invocation, so a repeated invocation against the same host
object fails with a duplicate-registration error rather than being a
no-op. -/
theorem registration_registry_idempotent (s s1 : PrinterState)
    (h : register_magnum_printers s = Except.ok s1) :
    build_magnum_printer (build_magnum_printer s) = build_magnum_printer s ∧
    register_magnum_printers s1 =
      Except.error "RuntimeError: printer already registered" := by
  have hbuild : ∀ t : PrinterState,
      build_magnum_printer (build_magnum_printer t) = build_magnum_printer t := by
    intro t
    unfold build_magnum_printer
    by_cases ht : t.magnumPrinters.isSome
    · simp [ht]
    · simp [ht]
  have hhost : ∀ t : PrinterState,
      (build_magnum_printer t).hostPrinters = t.hostPrinters := by
    intro t
    unfold build_magnum_printer
    by_cases ht : t.magnumPrinters.isSome
    · simp [ht]
    · simp [ht]
  have hmem : "Magnum" ∈ s1.hostPrinters := by
    simp only [register_magnum_printers] at h
    split at h
    · exact Except.noConfusion h
    · rename_i res hreg
      simp only [Except.ok.injEq] at h
      subst h
      exact registerPrettyPrinter_ok_mem _ _ _ hreg
  refine ⟨hbuild s, ?_⟩
  cases h1 : s1.magnumPrinters with
  | none =>
    simp [register_magnum_printers, registerPrettyPrinter, build_magnum_printer, h1, hmem]
  | some l =>
    simp [register_magnum_printers, registerPrettyPrinter, h1, hmem]

/-- Closed instance of `registration_registry_idempotent` from a fresh
process state. -/
theorem registration_registry_idempotent_witness :
    build_magnum_printer (build_magnum_printer ⟨none, []⟩) = build_magnum_printer ⟨none, []⟩ ∧
    register_magnum_printers ⟨some magnumPrinterNames, ["Magnum"]⟩ =
      Except.error "RuntimeError: printer already registered" :=
  registration_registry_idempotent ⟨none, []⟩ ⟨some magnumPrinterNames, ["Magnum"]⟩ rfl

/-- C9. For every matrix type name not containing
`"RectangularMatrix"`, the constructed printer has columns equal to
rows, so its text reports a square shape and it enumerates exactly
rows children. -/
theorem matrix_square_when_not_rectangular (name : List Char) (r c : Int)
    (hn : hasSub name ("RectangularMatrix".toList) = false)
    (hm : mkMatrixPrinter name = some (r, c)) :
    c = r ∧ matrixToString r c = matrixToString r r ∧
    (matrixRowChildren r.toNat).length = r.toNat := by
  have hc : c = r := by
    unfold mkMatrixPrinter at hm
    cases hrow : matrixRows name with
    | none => rw [hrow] at hm; simp at hm
    | some r0 =>
      rw [hrow] at hm
      simp only [hn, Bool.false_eq_true, if_false, Option.some.injEq,
        Prod.mk.injEq] at hm
      omega
  exact ⟨hc, by rw [hc], countingChildren_length _ _ _⟩

/-- Closed instance of `matrix_square_when_not_rectangular` on the
signature `"Magnum::Math::Matrix<4, float>"`. -/
theorem matrix_square_witness :
    ((4 : Int) = 4) ∧ matrixToString 4 4 = matrixToString 4 4 ∧
    (matrixRowChildren (4 : Int).toNat).length = (4 : Int).toNat :=
  matrix_square_when_not_rectangular ("Magnum::Math::Matrix<4, float>".toList) 4 4
    (by decide) (by decide)

/-- C10. The half renderer's decoded value does not depend on the
native byte order: encoding the stored 16-bit value with an order and
unpacking with the same order is the identity, so both orders decode
to the same number. -/
theorem half_order_independent (o1 o2 : ByteOrder) (v : Nat) (hv : v < 65536) :
    (intToBytes2 o1 v).map (unpackU16 o1) = some v ∧
    magnumHalfValue o1 v = magnumHalfValue o2 v := by
  have key : ∀ o : ByteOrder, (intToBytes2 o v).map (unpackU16 o) = some v := by
    intro o
    cases o <;> simp [intToBytes2, hv, unpackU16] <;> omega
  refine ⟨key o1, ?_⟩
  obtain ⟨b1, hb1, hu1⟩ := Option.map_eq_some'.mp (key o1)
  obtain ⟨b2, hb2, hu2⟩ := Option.map_eq_some'.mp (key o2)
  simp [magnumHalfValue, hb1, hb2, hu1, hu2]

/-- Closed instance of `half_order_independent` at the pattern
0x3C00. -/
theorem half_order_independent_witness :
    (intToBytes2 ByteOrder.little 0x3C00).map (unpackU16 ByteOrder.little) = some 0x3C00 ∧
    magnumHalfValue ByteOrder.little 0x3C00 = magnumHalfValue ByteOrder.big 0x3C00 :=
  half_order_independent ByteOrder.little ByteOrder.big 0x3C00 (by decide)
